import Mathlib

/-!
Verification of the big-number core of the repository (jarvis):
a shallow embedding of `src/utils/regex.py`, `src/utils/big_number.py`,
`src/utils/big_number_processing_storage.py`, `src/big_numbers/number.py`
and `src/data_structures/stack.py`, followed by theorems settling the
frozen claims about the addition engine, the splitter, the format
classifier, the numeric wrappers and the digit stack.

Numeric strings are embedded as `List Char`.  Python's `ord(c)` becomes
`Char.toNat`, and Python's `//` / `%` (floor division and floor modulus)
on the always-positive divisor `10` coincide with Lean's Euclidean
`/` / `%` on `Int`, which is what the embedding uses.
-/

namespace Jarvis

/-! ## Format classifier (`src/utils/regex.py`) -/

/-- A character in `'0'..'9'` (code points 48–57), the class matched by
`\d` in the regexes. -/
def isDigitChar (c : Char) : Bool := decide (48 ≤ c.toNat) && decide (c.toNat ≤ 57)

/-- Shape `\d+`: a non-empty, all-digit character list. -/
def digitsShape (l : List Char) : Bool := !l.isEmpty && l.all isDigitChar

/-- `is_int`: full match of `-?\d+` (optional leading minus, then digits). -/
def is_int : List Char → Bool
  | [] => false
  | c :: rest => if c = '-' then digitsShape rest else digitsShape (c :: rest)

/-- Tail shape `\d+\.\d+`: digits, one dot, digits, nothing else.  The
maximal digit prefix is forced because `.` is not a digit, so this is
equivalent to the regex match. -/
def decimalTail (l : List Char) : Bool :=
  match l.dropWhile isDigitChar with
  | c :: after => (c == '.') && digitsShape (l.takeWhile isDigitChar)
      && digitsShape after
  | [] => false

/-- `is_float`: full match of `-?\d+\.\d+`. -/
def is_float : List Char → Bool
  | [] => false
  | c :: rest => if c = '-' then decimalTail rest else decimalTail (c :: rest)

/-- `is_number`: `is_float(value) or is_int(value)`. -/
def is_number (l : List Char) : Bool := is_float l || is_int l

/-! ## Decimal splitter
(`src/utils/big_number_processing_storage.py`,
 `src/classes/dataclasses/big_number_processing_storage.py`) -/

/-- The dataclass holding the split representation. -/
structure BigNumberProcessingStorage where
  before_dot : List Char
  after_dot : List Char
  deriving DecidableEq

/-- `value.split(".")[0]`: the segment before the first dot. -/
def splitBefore (l : List Char) : List Char := l.takeWhile (fun c => c != '.')

/-- `value.split(".")[1]` for a string with exactly one dot (guaranteed by
`is_float` at the call site): everything after the first dot. -/
def splitAfter (l : List Char) : List Char := (l.dropWhile (fun c => c != '.')).drop 1

/-- `big_number_processing_storage_factory`: split a float-shaped string at
the dot, wrap an int-shaped string with fractional part `"0"`, and raise
`ValueError` (here: `none`) otherwise. -/
def big_number_processing_storage_factory (value : List Char) :
    Option BigNumberProcessingStorage :=
  if is_float value then some ⟨splitBefore value, splitAfter value⟩
  else if is_int value then some ⟨value, ['0']⟩
  else none

/-! ## Digit stack (`src/data_structures/stack.py`)

The node chain headed by `pointer` is embedded as the list of values from
the top node downward; `size` is kept as in the source. -/

/-- The stack: `elems` lists the node values from `pointer` following
`next` links; `size` mirrors the `size` attribute. -/
structure Stack (α : Type) where
  elems : List α
  size : Nat
  deriving DecidableEq

/-- `Stack()`: `pointer = None`, `size = 0`. -/
def Stack.empty {α : Type} : Stack α := ⟨[], 0⟩

/-- `Stack.add`: push a new node in front of `pointer`. -/
def Stack.add {α : Type} (s : Stack α) (v : α) : Stack α :=
  ⟨v :: s.elems, s.size + 1⟩

/-- `Stack.pop`: raise `OverflowError("Stack is empty")` (here: `none`) when
`pointer is None`, otherwise return the top node's value and advance
`pointer`. -/
def Stack.pop {α : Type} (s : Stack α) : Option (α × Stack α) :=
  match s.elems with
  | [] => none
  | v :: rest => some (v, ⟨rest, s.size - 1⟩)

/-- `Stack.find`: walk the chain looking for a value. -/
def Stack.find {α : Type} [DecidableEq α] (s : Stack α) (v : α) : Bool :=
  s.elems.contains v

/-- `len(stack)`: the `size` attribute. -/
def Stack.length {α : Type} (s : Stack α) : Nat := s.size

/-- Pushing every character of a string onto a fresh stack
(`for v in amount: stack.add(v)`) leaves the characters in reversed order,
ready to be popped least-significant-digit first. -/
def buildStack (l : List Char) : Stack Char :=
  l.foldl Stack.add Stack.empty

/-! ## Addition engine (`src/utils/big_number.py`) -/

/-- `ord(c) - ord("0")`, the digit value the source computes; note that for
`'-'` this is `-3`, not a sign. -/
def charVal (c : Char) : Int := (c.toNat : Int) - 48

/-- `number_to_char`: `ASCII[number + 48]`, the digit character for a value
in `0..9` (the dictionary is only defined there). -/
def number_to_char (d : Int) : Char := Char.ofNat (48 + d.toNat)

/-- The remain loop of both sum passes: pop the leftover digits of the
longer stack alone, adding the running carry to each.  Returns the
emitted digits in emission order (the order they are pushed onto the
result stack) together with the final carry (`accumulated`). -/
def addLoopOne : Int → List Char → List Int × Int
  | acc, [] => ([], acc)
  | acc, x :: xs =>
      let r := acc + charVal x
      let rest := addLoopOne (r / 10) xs
      (r % 10 :: rest.1, rest.2)

/-- The pop-and-add loops shared by `make_sum_remain_part` and
`make_sum_integer_part`, over the pop-order (reversed) digit lists: the
pair loop pops and adds from both stacks `min(len)` times, then the
remain loop (`addLoopOne`) pops the leftover of the longer stack alone.
Returns the emitted digits in emission order (least-significant first)
and the final carry. -/
def addLoop : Int → List Char → List Char → List Int × Int
  | acc, x :: xs, y :: ys =>
      let r := acc + charVal x + charVal y
      let rest := addLoop (r / 10) xs ys
      (r % 10 :: rest.1, rest.2)
  | acc, xs, [] => addLoopOne acc xs
  | acc, [], ys => addLoopOne acc ys

/-- `while string_result[0] == "0" and len(string_result) > 1`: strip
leading zero characters but keep at least one character. -/
def stripLeadingZeros : List Char → List Char
  | '0' :: c :: cs => stripLeadingZeros (c :: cs)
  | l => l

/-- The dataclass returned by the fractional pass. -/
structure RemainProcessing where
  result : List Char
  accumulated : Int
  deriving DecidableEq

/-- `make_sum_remain_part`: the fractional pass.  The characters of each
amount are pushed onto a stack (so popped in reversed order), the add
loops run with initial carry `0`, the result stack is popped end-to-end
(reversing the emissions back to most-significant-first) and leading
zeros are stripped.  The final carry is returned alongside. -/
def make_sum_remain_part (first_amount second_amount : List Char) :
    RemainProcessing :=
  let p := addLoop 0 first_amount.reverse second_amount.reverse
  ⟨stripLeadingZeros (p.1.reverse.map number_to_char), p.2⟩

/-- `make_sum_integer_part`: the integer pass, seeded with the carry from
the fractional pass; a positive final carry is pushed onto the result
stack (hence becomes the most significant character) before the string is
built and leading zeros are stripped. -/
def make_sum_integer_part (first_amount second_amount : List Char)
    (accumulated : Int) : List Char :=
  let p := addLoop accumulated first_amount.reverse second_amount.reverse
  let digits := if 0 < p.2 then p.1 ++ [p.2] else p.1
  stripLeadingZeros (digits.reverse.map number_to_char)

/-- `join_big_number_parts`: `integer_part + "." + remain_part`. -/
def join_big_number_parts (integer_part remain_part : List Char) : List Char :=
  integer_part ++ '.' :: remain_part

/-- `big_number_sum` on the operands' canonical strings: split both values
(`ValueError` from the factory propagates as `none`), run the fractional
pass then the integer pass linked by the carry, and drop a fractional
result `"0"`. -/
def big_number_sum (first second : List Char) : Option (List Char) :=
  match big_number_processing_storage_factory first,
        big_number_processing_storage_factory second with
  | some p1, some p2 =>
      let remain := make_sum_remain_part p1.after_dot p2.after_dot
      let integer := make_sum_integer_part p1.before_dot p2.before_dot
        remain.accumulated
      if remain.result = ['0'] then some integer
      else some (join_big_number_parts integer remain.result)
  | _, _ => none

/-! ## Numeric value types (`src/big_numbers/number.py`) -/

/-- `string.split(".")[0]`. -/
def string_float_to_int_converter (s : List Char) : List Char :=
  s.takeWhile (fun c => c != '.')

/-- `string + ".0"`. -/
def string_int_to_float_converter (s : List Char) : List Char :=
  s ++ ['.', '0']

/-- `string_value_to_int`: truncate a float-shaped string at the dot, keep
an int-shaped string, raise `ValueError` (here: `none`) otherwise.  This
is the `Int` value setter's conversion. -/
def string_value_to_int (s : List Char) : Option (List Char) :=
  if is_float s then some (string_float_to_int_converter s)
  else if is_int s then some s
  else none

/-- `string_value_to_float`: extend an int-shaped string with `".0"`, keep
a float-shaped string, raise `ValueError` otherwise.  This is the `Float`
value setter's conversion. -/
def string_value_to_float (s : List Char) : Option (List Char) :=
  if is_int s then some (string_int_to_float_converter s)
  else if is_float s then some s
  else none

/-- Outcome of `Int.__add__` / `Float.__add__` (their bodies are
identical): a new `Int`, a new `Float`, the implicit `None` fall-through
when the sum string matches neither shape, or a propagated `ValueError`. -/
inductive AddOutcome
  | mkInt (s : List Char)
  | mkFloat (s : List Char)
  | pyNone
  | invalid
  deriving DecidableEq

/-- `__add__`: compute `big_number_sum`, wrap an int-shaped result as
`Int(result)` (whose setter runs `string_value_to_int`), a float-shaped
result as `Float(result)` (setter runs `string_value_to_float`), and fall
through to `None` otherwise. -/
def dunder_add (a b : List Char) : AddOutcome :=
  match big_number_sum a b with
  | none => .invalid
  | some r =>
      if is_int r then
        match string_value_to_int r with
        | some v => .mkInt v
        | none => .invalid
      else if is_float r then
        match string_value_to_float r with
        | some v => .mkFloat v
        | none => .invalid
      else .pyNone

/-- Re-joining a split representation the way the specification's
round-trip property describes: integer part alone when the fractional
part is `"0"`, otherwise `join_big_number_parts`. -/
def split_roundtrip (s : List Char) : Option (List Char) :=
  (big_number_processing_storage_factory s).map fun p =>
    if p.after_dot = ['0'] then p.before_dot
    else join_big_number_parts p.before_dot p.after_dot

/-- The integer a digit-value list denotes when read least-significant
entry first (the emission order of the add loops). -/
def listVal : List Int → Int
  | [] => 0
  | d :: ds => d + 10 * listVal ds

/-- The integer a digit string denotes when read as an ordinary
(right-justified) decimal numeral, via `ord(c) - ord("0")` digit values. -/
def strVal (l : List Char) : Int := listVal (l.reverse.map charVal)

/-! ## Character-level lemmas -/

lemma charVal_of_digit {c : Char} (h : isDigitChar c = true) :
    0 ≤ charVal c ∧ charVal c ≤ 9 := by
  simp only [isDigitChar, Bool.and_eq_true, decide_eq_true_eq] at h
  simp only [charVal]
  omega

lemma charVal_of_digit_or_minus {c : Char}
    (h : isDigitChar c = true ∨ c = '-') :
    -3 ≤ charVal c ∧ charVal c ≤ 9 := by
  rcases h with h | h
  · have := charVal_of_digit h
    omega
  · subst h
    decide

lemma digit_ne_minus {c : Char} (h : isDigitChar c = true) : c ≠ '-' := by
  intro he
  subst he
  exact absurd h (by decide)

lemma digit_ne_dot {c : Char} (h : isDigitChar c = true) : c ≠ '.' := by
  intro he
  subst he
  exact absurd h (by decide)

lemma isDigitChar_number_to_char {d : Int} (h0 : 0 ≤ d) (h9 : d ≤ 9) :
    isDigitChar (number_to_char d) = true := by
  interval_cases d <;> decide

lemma charVal_number_to_char {d : Int} (h0 : 0 ≤ d) (h9 : d ≤ 9) :
    charVal (number_to_char d) = d := by
  interval_cases d <;> decide

/-! ## Add-loop lemmas -/

lemma addLoopOne_length : ∀ (xs : List Char) (acc : Int),
    (addLoopOne acc xs).1.length = xs.length := by
  intro xs
  induction xs with
  | nil => intro acc; rfl
  | cons x xs ih => intro acc; simp [addLoopOne, ih]

lemma addLoopOne_bounds : ∀ (xs : List Char) (acc : Int),
    (∀ c ∈ xs, -3 ≤ charVal c ∧ charVal c ≤ 9) → -1 ≤ acc → acc ≤ 1 →
    (∀ d ∈ (addLoopOne acc xs).1, 0 ≤ d ∧ d ≤ 9) ∧
      -1 ≤ (addLoopOne acc xs).2 ∧ (addLoopOne acc xs).2 ≤ 1 := by
  intro xs
  induction xs with
  | nil =>
      intro acc _ h1 h2
      exact ⟨by simp [addLoopOne], by simpa [addLoopOne] using h1,
        by simpa [addLoopOne] using h2⟩
  | cons x xs ih =>
      intro acc hx h1 h2
      have hxc := hx x (List.mem_cons_self x xs)
      have hxs : ∀ c ∈ xs, -3 ≤ charVal c ∧ charVal c ≤ 9 :=
        fun c hc => hx c (List.mem_cons_of_mem _ hc)
      have h := ih ((acc + charVal x) / 10) hxs (by omega) (by omega)
      refine ⟨?_, ?_, ?_⟩
      · intro d hd
        simp only [addLoopOne] at hd
        rcases List.mem_cons.mp hd with rfl | hd
        · constructor <;> omega
        · exact h.1 d hd
      · simpa [addLoopOne] using h.2.1
      · simpa [addLoopOne] using h.2.2

lemma addLoopOne_val : ∀ (xs : List Char) (acc : Int),
    listVal (addLoopOne acc xs).1 + (addLoopOne acc xs).2 * 10 ^ xs.length
      = acc + listVal (xs.map charVal) := by
  intro xs
  induction xs with
  | nil => intro acc; simp [addLoopOne, listVal]
  | cons x xs ih =>
      intro acc
      have h := ih ((acc + charVal x) / 10)
      have hid : (acc + charVal x) % 10 + 10 * ((acc + charVal x) / 10)
          = acc + charVal x := by omega
      simp only [addLoopOne, listVal, List.map_cons, List.length_cons]
      rw [pow_succ]
      linear_combination 10 * h + hid

lemma addLoop_comm : ∀ (xs ys : List Char) (acc : Int),
    addLoop acc xs ys = addLoop acc ys xs := by
  intro xs
  induction xs with
  | nil =>
      intro ys acc
      cases ys <;> rfl
  | cons x xs ih =>
      intro ys acc
      cases ys with
      | nil => rfl
      | cons y ys =>
          simp only [addLoop]
          have hc : acc + charVal x + charVal y = acc + charVal y + charVal x := by
            ring
          rw [hc, ih]

lemma addLoop_length : ∀ (xs ys : List Char) (acc : Int),
    (addLoop acc xs ys).1.length = max xs.length ys.length := by
  intro xs
  induction xs with
  | nil =>
      intro ys acc
      cases ys with
      | nil => rfl
      | cons y ys => simp [addLoop, addLoopOne_length]
  | cons x xs ih =>
      intro ys acc
      cases ys with
      | nil => simp [addLoop, addLoopOne_length]
      | cons y ys => simp [addLoop, ih, Nat.succ_max_succ]

lemma addLoop_bounds : ∀ (xs ys : List Char) (acc : Int),
    (∀ c ∈ xs, -3 ≤ charVal c ∧ charVal c ≤ 9) →
    (∀ c ∈ ys, -3 ≤ charVal c ∧ charVal c ≤ 9) → -1 ≤ acc → acc ≤ 1 →
    (∀ d ∈ (addLoop acc xs ys).1, 0 ≤ d ∧ d ≤ 9) ∧
      -1 ≤ (addLoop acc xs ys).2 ∧ (addLoop acc xs ys).2 ≤ 1 := by
  intro xs
  induction xs with
  | nil =>
      intro ys acc _ hy h1 h2
      cases ys with
      | nil => simpa [addLoop] using addLoopOne_bounds [] acc (by simp) h1 h2
      | cons y ys =>
          simpa [addLoop] using addLoopOne_bounds (y :: ys) acc hy h1 h2
  | cons x xs ih =>
      intro ys acc hx hy h1 h2
      cases ys with
      | nil => simpa [addLoop] using addLoopOne_bounds (x :: xs) acc hx h1 h2
      | cons y ys =>
          have hxc := hx x (List.mem_cons_self x xs)
          have hyc := hy y (List.mem_cons_self y ys)
          have hxs : ∀ c ∈ xs, -3 ≤ charVal c ∧ charVal c ≤ 9 :=
            fun c hc => hx c (List.mem_cons_of_mem _ hc)
          have hys : ∀ c ∈ ys, -3 ≤ charVal c ∧ charVal c ≤ 9 :=
            fun c hc => hy c (List.mem_cons_of_mem _ hc)
          have h := ih ys ((acc + charVal x + charVal y) / 10) hxs hys
            (by omega) (by omega)
          refine ⟨?_, ?_, ?_⟩
          · intro d hd
            simp only [addLoop] at hd
            rcases List.mem_cons.mp hd with rfl | hd
            · constructor <;> omega
            · exact h.1 d hd
          · simpa [addLoop] using h.2.1
          · simpa [addLoop] using h.2.2

lemma stripLeadingZeros_eq_self (l : List Char)
    (h : ∀ (c : Char) (cs : List Char), l = '0' :: c :: cs → False) :
    stripLeadingZeros l = l := by
  cases l with
  | nil => rfl
  | cons a t =>
      cases t with
      | nil =>
          by_cases ha : a = '0'
          · subst ha; rfl
          · simp [stripLeadingZeros, ha]
      | cons c cs =>
          have ha : a ≠ '0' := fun he => h c cs (by rw [he])
          simp [stripLeadingZeros, ha]

lemma stripLeadingZeros_suffix : ∀ l, stripLeadingZeros l <:+ l := by
  intro l
  induction l using stripLeadingZeros.induct with
  | case1 c cs ih =>
      have h0 : stripLeadingZeros ('0' :: c :: cs) = stripLeadingZeros (c :: cs) :=
        rfl
      rw [h0]
      exact ih.trans (List.suffix_cons '0' (c :: cs))
  | case2 l h => rw [stripLeadingZeros_eq_self l h]

lemma stripLeadingZeros_ne_nil : ∀ l : List Char, l ≠ [] →
    stripLeadingZeros l ≠ [] := by
  intro l
  induction l using stripLeadingZeros.induct with
  | case1 c cs ih =>
      intro _
      exact ih (List.cons_ne_nil c cs)
  | case2 l h =>
      intro hne
      rw [stripLeadingZeros_eq_self l h]
      exact hne

lemma stripLeadingZeros_mem {l : List Char} {c : Char}
    (hc : c ∈ stripLeadingZeros l) : c ∈ l :=
  (stripLeadingZeros_suffix l).sublist.subset hc

lemma listVal_append_zero : ∀ ds : List Int, listVal (ds ++ [0]) = listVal ds := by
  intro ds
  induction ds with
  | nil => simp [listVal]
  | cons d ds ih => simp [listVal, ih]

lemma charVal_zero_char : charVal '0' = 0 := by decide

lemma strVal_cons_zero (t : List Char) : strVal ('0' :: t) = strVal t := by
  simp [strVal, List.reverse_cons, List.map_append, charVal_zero_char,
    listVal_append_zero]

lemma strVal_stripLeadingZeros : ∀ l, strVal (stripLeadingZeros l) = strVal l := by
  intro l
  induction l using stripLeadingZeros.induct with
  | case1 c cs ih =>
      have h0 : stripLeadingZeros ('0' :: c :: cs) = stripLeadingZeros (c :: cs) :=
        rfl
      rw [h0, ih, strVal_cons_zero]
  | case2 l h => rw [stripLeadingZeros_eq_self l h]

/-! ## Shape-classifier lemmas -/

lemma digitsShape_iff (l : List Char) :
    digitsShape l = true ↔ l ≠ [] ∧ ∀ c ∈ l, isDigitChar c = true := by
  simp [digitsShape, List.isEmpty_iff, List.all_eq_true]

lemma is_int_of_digits {l : List Char} (hne : l ≠ [])
    (h : ∀ c ∈ l, isDigitChar c = true) : is_int l = true := by
  cases l with
  | nil => exact absurd rfl hne
  | cons c rest =>
      have hc := h c (List.mem_cons_self c rest)
      simp only [is_int, if_neg (digit_ne_minus hc)]
      exact (digitsShape_iff _).mpr ⟨List.cons_ne_nil c rest, h⟩

lemma is_int_chars {l : List Char} (h : is_int l = true) :
    l ≠ [] ∧ ∀ c ∈ l, isDigitChar c = true ∨ c = '-' := by
  cases l with
  | nil => exact absurd h (by decide)
  | cons c rest =>
      by_cases hc : c = '-'
      · subst hc
        simp only [is_int, if_pos rfl] at h
        refine ⟨List.cons_ne_nil _ _, ?_⟩
        intro d hd
        rcases List.mem_cons.mp hd with rfl | hd
        · exact Or.inr rfl
        · exact Or.inl (((digitsShape_iff rest).mp h).2 d hd)
      · simp only [is_int, if_neg hc] at h
        exact ⟨List.cons_ne_nil _ _,
          fun d hd => Or.inl (((digitsShape_iff _).mp h).2 d hd)⟩

lemma decimalTail_of_digits {m : List Char}
    (h : ∀ c ∈ m, isDigitChar c = true) : decimalTail m = false := by
  have hdw : m.dropWhile isDigitChar = [] := List.dropWhile_eq_nil_iff.mpr h
  unfold decimalTail
  rw [hdw]

lemma not_is_float_of_is_int {l : List Char} (h : is_int l = true) :
    is_float l = false := by
  cases l with
  | nil => rfl
  | cons c rest =>
      by_cases hc : c = '-'
      · subst hc
        simp only [is_int, if_pos rfl] at h
        simp only [is_float, if_pos rfl]
        exact decimalTail_of_digits ((digitsShape_iff rest).mp h).2
      · simp only [is_int, if_neg hc] at h
        simp only [is_float, if_neg hc]
        exact decimalTail_of_digits ((digitsShape_iff _).mp h).2

lemma not_is_int_of_is_float {l : List Char} (h : is_float l = true) :
    is_int l = false := by
  by_contra hne
  have hi : is_int l = true := by
    revert hne
    cases is_int l <;> simp
  rw [not_is_float_of_is_int hi] at h
  exact absurd h (by decide)

lemma isDigitChar_dot : isDigitChar '.' = false := by decide

lemma takeWhile_digits_append : ∀ pre rest : List Char,
    (∀ c ∈ pre, isDigitChar c = true) →
    (pre ++ '.' :: rest).takeWhile isDigitChar = pre ∧
      (pre ++ '.' :: rest).dropWhile isDigitChar = '.' :: rest := by
  intro pre
  induction pre with
  | nil =>
      intro rest _
      simp [List.takeWhile_cons, List.dropWhile_cons, isDigitChar_dot]
  | cons p ps ih =>
      intro rest h
      have hp := h p (List.mem_cons_self p ps)
      have hih := ih rest fun c hc => h c (List.mem_cons_of_mem _ hc)
      simp [List.takeWhile_cons, List.dropWhile_cons, hp, hih.1, hih.2]

lemma takeWhile_ne_dot_append : ∀ pre rest : List Char,
    (∀ c ∈ pre, c ≠ '.') →
    (pre ++ '.' :: rest).takeWhile (fun c => c != '.') = pre ∧
      (pre ++ '.' :: rest).dropWhile (fun c => c != '.') = '.' :: rest := by
  intro pre
  induction pre with
  | nil =>
      intro rest _
      simp [List.takeWhile_cons, List.dropWhile_cons]
  | cons p ps ih =>
      intro rest h
      have hp : (p != '.') = true := by
        simpa using h p (List.mem_cons_self p ps)
      have hih := ih rest fun c hc => h c (List.mem_cons_of_mem _ hc)
      simp [List.takeWhile_cons, List.dropWhile_cons, hp, hih.1, hih.2]

lemma decimalTail_intro {pre after : List Char} (hpre : digitsShape pre = true)
    (hafter : digitsShape after = true) :
    decimalTail (pre ++ '.' :: after) = true := by
  have hd := takeWhile_digits_append pre after ((digitsShape_iff pre).mp hpre).2
  unfold decimalTail
  rw [hd.2, hd.1]
  simp [hpre, hafter]

lemma decimalTail_elim {m : List Char} (h : decimalTail m = true) :
    ∃ pre after, m = pre ++ '.' :: after ∧ digitsShape pre = true ∧
      digitsShape after = true := by
  unfold decimalTail at h
  rcases hdw : m.dropWhile isDigitChar with _ | ⟨d, ds⟩
  · rw [hdw] at h
    exact absurd h Bool.false_ne_true
  · rw [hdw] at h
    simp only [Bool.and_eq_true, beq_iff_eq] at h
    obtain ⟨⟨hd, hpre⟩, hafter⟩ := h
    subst hd
    refine ⟨m.takeWhile isDigitChar, ds, ?_, hpre, hafter⟩
    conv_lhs => rw [← List.takeWhile_append_dropWhile isDigitChar m, hdw]

lemma is_float_intro_pos {pre after : List Char} (hpre : digitsShape pre = true)
    (hafter : digitsShape after = true) :
    is_float (pre ++ '.' :: after) = true := by
  rcases pre with _ | ⟨p, ps⟩
  · exact absurd hpre (by decide)
  · have hp : isDigitChar p = true :=
      ((digitsShape_iff _).mp hpre).2 p (List.mem_cons_self _ _)
    have he : is_float ((p :: ps) ++ '.' :: after)
        = decimalTail ((p :: ps) ++ '.' :: after) := by
      rw [List.cons_append]
      simp [is_float, digit_ne_minus hp]
    rw [he]
    exact decimalTail_intro hpre hafter

lemma is_float_intro_neg {pre after : List Char} (hpre : digitsShape pre = true)
    (hafter : digitsShape after = true) :
    is_float ('-' :: (pre ++ '.' :: after)) = true := by
  simp only [is_float, if_pos rfl]
  exact decimalTail_intro hpre hafter

lemma is_float_elim {l : List Char} (h : is_float l = true) :
    l = splitBefore l ++ '.' :: splitAfter l ∧
    splitBefore l ≠ [] ∧
    (∀ c ∈ splitBefore l, isDigitChar c = true ∨ c = '-') ∧
    splitAfter l ≠ [] ∧
    (∀ c ∈ splitAfter l, isDigitChar c = true) := by
  cases l with
  | nil => exact absurd h (by decide)
  | cons c rest =>
      by_cases hc : c = '-'
      · subst hc
        simp only [is_float, if_pos rfl] at h
        obtain ⟨pre, after, hm, hpre, hafter⟩ := decimalTail_elim h
        have hpredig := ((digitsShape_iff pre).mp hpre).2
        have hpd : ∀ x ∈ pre, x ≠ '.' := fun x hx => digit_ne_dot (hpredig x hx)
        have htd := takeWhile_ne_dot_append pre after hpd
        have hsb : splitBefore ('-' :: rest) = '-' :: pre := by
          rw [hm]
          simp only [splitBefore, List.takeWhile_cons]
          rw [if_pos (by decide), htd.1]
        have hsa : splitAfter ('-' :: rest) = after := by
          rw [hm]
          simp only [splitAfter, List.dropWhile_cons]
          rw [if_pos (by decide), htd.2]
          rfl
        rw [hsb, hsa]
        refine ⟨by rw [hm, List.cons_append], List.cons_ne_nil _ _, ?_,
          ((digitsShape_iff after).mp hafter).1,
          ((digitsShape_iff after).mp hafter).2⟩
        intro x hx
        rcases List.mem_cons.mp hx with rfl | hx
        · exact Or.inr rfl
        · exact Or.inl (hpredig x hx)
      · simp only [is_float, if_neg hc] at h
        obtain ⟨pre, after, hm, hpre, hafter⟩ := decimalTail_elim h
        have hpredig := ((digitsShape_iff pre).mp hpre).2
        have hpd : ∀ x ∈ pre, x ≠ '.' := fun x hx => digit_ne_dot (hpredig x hx)
        have htd := takeWhile_ne_dot_append pre after hpd
        have hsb : splitBefore (c :: rest) = pre := by
          rw [hm]
          exact (takeWhile_ne_dot_append pre after hpd).1
        have hsa : splitAfter (c :: rest) = after := by
          rw [hm]
          simp only [splitAfter]
          rw [htd.2]
          rfl
        rw [hsb, hsa]
        exact ⟨by rw [hm], ((digitsShape_iff pre).mp hpre).1,
          fun x hx => Or.inl (hpredig x hx),
          ((digitsShape_iff after).mp hafter).1,
          ((digitsShape_iff after).mp hafter).2⟩

/-! ## Factory lemmas -/

lemma factory_of_is_int {l : List Char} (h : is_int l = true) :
    big_number_processing_storage_factory l = some ⟨l, ['0']⟩ := by
  simp [big_number_processing_storage_factory, not_is_float_of_is_int h, h]

lemma factory_of_is_float {l : List Char} (h : is_float l = true) :
    big_number_processing_storage_factory l
      = some ⟨splitBefore l, splitAfter l⟩ := by
  simp [big_number_processing_storage_factory, h]

lemma factory_parts {l : List Char} {p : BigNumberProcessingStorage}
    (h : big_number_processing_storage_factory l = some p) :
    p.before_dot ≠ [] ∧
    (∀ c ∈ p.before_dot, isDigitChar c = true ∨ c = '-') ∧
    p.after_dot ≠ [] ∧
    (∀ c ∈ p.after_dot, isDigitChar c = true) := by
  by_cases hf : is_float l = true
  · rw [factory_of_is_float hf] at h
    obtain ⟨-, h1, h2, h3, h4⟩ := is_float_elim hf
    cases Option.some.inj h
    exact ⟨h1, h2, h3, h4⟩
  · by_cases hi : is_int l = true
    · rw [factory_of_is_int hi] at h
      cases Option.some.inj h
      obtain ⟨h1, h2⟩ := is_int_chars hi
      exact ⟨h1, h2, List.cons_ne_nil _ _, by intro c hc; simp at hc; subst hc; decide⟩
    · rw [big_number_processing_storage_factory,
        if_neg (by simpa using hf), if_neg (by simpa using hi)] at h
      exact absurd h (by simp)

lemma addLoop_val : ∀ (xs ys : List Char) (acc : Int),
    listVal (addLoop acc xs ys).1
        + (addLoop acc xs ys).2 * 10 ^ max xs.length ys.length
      = acc + listVal (xs.map charVal) + listVal (ys.map charVal) := by
  intro xs
  induction xs with
  | nil =>
      intro ys acc
      cases ys with
      | nil => simp [addLoop, addLoopOne, listVal]
      | cons y ys =>
          have h := addLoopOne_val (y :: ys) acc
          simpa [addLoop, listVal] using h
  | cons x xs ih =>
      intro ys acc
      cases ys with
      | nil =>
          have h := addLoopOne_val (x :: xs) acc
          simpa [addLoop, listVal] using h
      | cons y ys =>
          have h := ih ys ((acc + charVal x + charVal y) / 10)
          have hid : (acc + charVal x + charVal y) % 10
                + 10 * ((acc + charVal x + charVal y) / 10)
              = acc + charVal x + charVal y := by omega
          simp only [addLoop, listVal, List.map_cons, List.length_cons,
            Nat.succ_max_succ]
          rw [pow_succ]
          linear_combination 10 * h + hid


/-! ## Result-shape lemmas for the two sum passes -/

lemma make_sum_remain_part_eq (a b : List Char) :
    make_sum_remain_part a b =
      ⟨stripLeadingZeros
          ((addLoop 0 a.reverse b.reverse).1.reverse.map number_to_char),
        (addLoop 0 a.reverse b.reverse).2⟩ := rfl

lemma make_sum_integer_part_eq (a b : List Char) (acc : Int) :
    make_sum_integer_part a b acc =
      stripLeadingZeros
        ((if 0 < (addLoop acc a.reverse b.reverse).2
            then (addLoop acc a.reverse b.reverse).1
              ++ [(addLoop acc a.reverse b.reverse).2]
            else (addLoop acc a.reverse b.reverse).1).reverse.map
          number_to_char) := rfl

lemma strip_map_digits {ds : List Int} (hds : ∀ d ∈ ds, 0 ≤ d ∧ d ≤ 9)
    (hne : ds ≠ []) :
    stripLeadingZeros (ds.reverse.map number_to_char) ≠ [] ∧
      ∀ c ∈ stripLeadingZeros (ds.reverse.map number_to_char),
        isDigitChar c = true := by
  constructor
  · apply stripLeadingZeros_ne_nil
    simp [hne]
  · intro c hc
    have hc2 := stripLeadingZeros_mem hc
    obtain ⟨d, hd, rfl⟩ := List.mem_map.mp hc2
    have hd2 : d ∈ ds := List.mem_reverse.mp hd
    exact isDigitChar_number_to_char (hds d hd2).1 (hds d hd2).2

lemma charVal_reverse_bounds {l : List Char}
    (h : ∀ c ∈ l, isDigitChar c = true ∨ c = '-') :
    ∀ c ∈ l.reverse, -3 ≤ charVal c ∧ charVal c ≤ 9 := fun c hc =>
  charVal_of_digit_or_minus (h c (List.mem_reverse.mp hc))

lemma make_sum_remain_part_digits {a b : List Char}
    (ha : ∀ c ∈ a, isDigitChar c = true) (hb : ∀ c ∈ b, isDigitChar c = true)
    (hne : a ≠ []) :
    (make_sum_remain_part a b).result ≠ [] ∧
      (∀ c ∈ (make_sum_remain_part a b).result, isDigitChar c = true) ∧
      -1 ≤ (make_sum_remain_part a b).accumulated ∧
      (make_sum_remain_part a b).accumulated ≤ 1 := by
  have hbd := addLoop_bounds a.reverse b.reverse 0
    (charVal_reverse_bounds fun c hc => Or.inl (ha c hc))
    (charVal_reverse_bounds fun c hc => Or.inl (hb c hc))
    (by omega) (by omega)
  have hlen := addLoop_length a.reverse b.reverse 0
  have hnil : (addLoop 0 a.reverse b.reverse).1 ≠ [] := by
    intro h0
    rw [h0] at hlen
    simp [List.length_reverse] at hlen
    have ha0 : a.length = 0 := by omega
    exact hne (List.length_eq_zero.mp ha0)
  have hs := strip_map_digits hbd.1 hnil
  rw [make_sum_remain_part_eq]
  exact ⟨hs.1, hs.2, hbd.2.1, hbd.2.2⟩

lemma make_sum_integer_part_digits {a b : List Char} {acc : Int}
    (ha : ∀ c ∈ a, isDigitChar c = true ∨ c = '-')
    (hb : ∀ c ∈ b, isDigitChar c = true ∨ c = '-')
    (h1 : -1 ≤ acc) (h2 : acc ≤ 1) (hne : a ≠ []) :
    make_sum_integer_part a b acc ≠ [] ∧
      ∀ c ∈ make_sum_integer_part a b acc, isDigitChar c = true := by
  have hbd := addLoop_bounds a.reverse b.reverse acc
    (charVal_reverse_bounds ha) (charVal_reverse_bounds hb) h1 h2
  have hlen := addLoop_length a.reverse b.reverse acc
  have hnil : (addLoop acc a.reverse b.reverse).1 ≠ [] := by
    intro h0
    rw [h0] at hlen
    simp [List.length_reverse] at hlen
    have ha0 : a.length = 0 := by omega
    exact hne (List.length_eq_zero.mp ha0)
  have hall : ∀ d ∈ (if 0 < (addLoop acc a.reverse b.reverse).2
      then (addLoop acc a.reverse b.reverse).1
        ++ [(addLoop acc a.reverse b.reverse).2]
      else (addLoop acc a.reverse b.reverse).1), 0 ≤ d ∧ d ≤ 9 := by
    intro d hd
    by_cases hc : 0 < (addLoop acc a.reverse b.reverse).2
    · rw [if_pos hc] at hd
      rcases List.mem_append.mp hd with hd | hd
      · exact hbd.1 d hd
      · have : d = (addLoop acc a.reverse b.reverse).2 := by simpa using hd
        subst this
        exact ⟨by omega, by omega⟩
    · rw [if_neg hc] at hd
      exact hbd.1 d hd
  have hnil2 : (if 0 < (addLoop acc a.reverse b.reverse).2
      then (addLoop acc a.reverse b.reverse).1
        ++ [(addLoop acc a.reverse b.reverse).2]
      else (addLoop acc a.reverse b.reverse).1) ≠ [] := by
    by_cases hc : 0 < (addLoop acc a.reverse b.reverse).2 <;>
      simp [hc, hnil]
  have hs := strip_map_digits hall hnil2
  rw [make_sum_integer_part_eq]
  exact ⟨hs.1, hs.2⟩

lemma make_sum_remain_part_val {a b : List Char}
    (ha : ∀ c ∈ a, isDigitChar c = true)
    (hb : ∀ c ∈ b, isDigitChar c = true) :
    strVal (make_sum_remain_part a b).result
        + (make_sum_remain_part a b).accumulated * 10 ^ max a.length b.length
      = strVal a + strVal b := by
  have hbd := addLoop_bounds a.reverse b.reverse 0
    (charVal_reverse_bounds fun c hc => Or.inl (ha c hc))
    (charVal_reverse_bounds fun c hc => Or.inl (hb c hc))
    (by omega) (by omega)
  rw [make_sum_remain_part_eq]
  simp only
  rw [strVal_stripLeadingZeros]
  have hmap : strVal ((addLoop 0 a.reverse b.reverse).1.reverse.map
      number_to_char) = listVal (addLoop 0 a.reverse b.reverse).1 := by
    unfold strVal
    rw [← List.map_reverse, List.reverse_reverse, List.map_map]
    congr 1
    have : ∀ d ∈ (addLoop 0 a.reverse b.reverse).1,
        (charVal ∘ number_to_char) d = d := by
      intro d hd
      exact charVal_number_to_char (hbd.1 d hd).1 (hbd.1 d hd).2
    rw [List.map_congr_left this]
    simp
  rw [hmap]
  have hv := addLoop_val a.reverse b.reverse 0
  simp only [List.length_reverse] at hv
  unfold strVal
  omega

/-! ## Sum-level lemmas -/

lemma is_number_cases {l : List Char} (h : is_number l = true) :
    is_float l = true ∨ (is_float l = false ∧ is_int l = true) := by
  unfold is_number at h
  cases hf : is_float l
  · right
    exact ⟨rfl, by simpa [hf] using h⟩
  · left
    rfl

lemma factory_of_is_number {l : List Char} (h : is_number l = true) :
    ∃ p, big_number_processing_storage_factory l = some p := by
  rcases is_number_cases h with hf | ⟨-, hi⟩
  · exact ⟨_, factory_of_is_float hf⟩
  · exact ⟨_, factory_of_is_int hi⟩

lemma big_number_sum_eq {a b : List Char} {pa pb : BigNumberProcessingStorage}
    (hfa : big_number_processing_storage_factory a = some pa)
    (hfb : big_number_processing_storage_factory b = some pb) :
    big_number_sum a b =
      (if (make_sum_remain_part pa.after_dot pb.after_dot).result = ['0']
        then some (make_sum_integer_part pa.before_dot pb.before_dot
          (make_sum_remain_part pa.after_dot pb.after_dot).accumulated)
        else some (join_big_number_parts
          (make_sum_integer_part pa.before_dot pb.before_dot
            (make_sum_remain_part pa.after_dot pb.after_dot).accumulated)
          (make_sum_remain_part pa.after_dot pb.after_dot).result)) := by
  unfold big_number_sum
  rw [hfa, hfb]

lemma big_number_sum_shape {a b : List Char} (ha : is_number a = true)
    (hb : is_number b = true) :
    ∃ r, big_number_sum a b = some r ∧
      (is_int r = true ∨ is_float r = true) ∧
      (∀ c ∈ r, isDigitChar c = true ∨ c = '.') := by
  obtain ⟨pa, hfa⟩ := factory_of_is_number ha
  obtain ⟨pb, hfb⟩ := factory_of_is_number hb
  obtain ⟨hb1, hb2, hb3, hb4⟩ := factory_parts hfa
  obtain ⟨hc1, hc2, hc3, hc4⟩ := factory_parts hfb
  have hrem := make_sum_remain_part_digits hb4 hc4 hb3
  have hint := make_sum_integer_part_digits hb2 hc2 hrem.2.2.1 hrem.2.2.2 hb1
  rw [big_number_sum_eq hfa hfb]
  by_cases h0 : (make_sum_remain_part pa.after_dot pb.after_dot).result = ['0']
  · rw [if_pos h0]
    refine ⟨_, rfl, Or.inl (is_int_of_digits hint.1 hint.2), ?_⟩
    intro c hc
    exact Or.inl (hint.2 c hc)
  · rw [if_neg h0]
    refine ⟨_, rfl, ?_, ?_⟩
    · right
      unfold join_big_number_parts
      exact is_float_intro_pos ((digitsShape_iff _).mpr ⟨hint.1, hint.2⟩)
        ((digitsShape_iff _).mpr ⟨hrem.1, hrem.2.1⟩)
    · intro c hc
      unfold join_big_number_parts at hc
      rcases List.mem_append.mp hc with hc | hc
      · exact Or.inl (hint.2 c hc)
      · rcases List.mem_cons.mp hc with rfl | hc
        · exact Or.inr rfl
        · exact Or.inl (hrem.2.1 c hc)

lemma make_sum_remain_part_comm (a b : List Char) :
    make_sum_remain_part a b = make_sum_remain_part b a := by
  unfold make_sum_remain_part
  rw [addLoop_comm]

lemma make_sum_integer_part_comm (a b : List Char) (acc : Int) :
    make_sum_integer_part a b acc = make_sum_integer_part b a acc := by
  unfold make_sum_integer_part
  rw [addLoop_comm]

lemma big_number_sum_comm (a b : List Char) :
    big_number_sum a b = big_number_sum b a := by
  unfold big_number_sum
  cases hfa : big_number_processing_storage_factory a with
  | none =>
      cases hfb : big_number_processing_storage_factory b with
      | none => rfl
      | some pb => rfl
  | some pa =>
      cases hfb : big_number_processing_storage_factory b with
      | none => rfl
      | some pb =>
          simp only
          rw [make_sum_remain_part_comm pb.after_dot pa.after_dot,
            make_sum_integer_part_comm pb.before_dot pa.before_dot]

/-! ## `__add__` wrapper lemmas -/

lemma string_value_to_int_of_is_int {r : List Char} (hr : is_int r = true) :
    string_value_to_int r = some r := by
  unfold string_value_to_int
  rw [not_is_float_of_is_int hr]
  simp [hr]

lemma string_value_to_float_of_is_float {r : List Char}
    (hr : is_float r = true) : string_value_to_float r = some r := by
  unfold string_value_to_float
  rw [not_is_int_of_is_float hr]
  simp [hr]

lemma dunder_add_of_int {a b r : List Char} (h : big_number_sum a b = some r)
    (hr : is_int r = true) : dunder_add a b = AddOutcome.mkInt r := by
  unfold dunder_add
  rw [h]
  simp [hr, string_value_to_int_of_is_int hr]

lemma dunder_add_of_float {a b r : List Char} (h : big_number_sum a b = some r)
    (hr : is_float r = true) : dunder_add a b = AddOutcome.mkFloat r := by
  unfold dunder_add
  rw [h]
  simp [not_is_int_of_is_float hr, hr, string_value_to_float_of_is_float hr]

/-! ## Claim theorems -/

/-- Claim C1: addition propagates the carry from the fractional pass into
the integer pass and normalizes a zero fractional result to an Integer:
`Decimal("0.9") + Decimal("0.9")` yields the canonical string `"1.8"`
(wrapped as a Decimal/`Float`), and `Decimal("9.9") + Decimal("0.1")`
yields `"10"` wrapped as an Integer/`Int` (the fractional result `"0"` is
dropped). -/
theorem claim_C1 :
    big_number_sum "0.9".data "0.9".data = some "1.8".data ∧
    dunder_add "0.9".data "0.9".data = AddOutcome.mkFloat "1.8".data ∧
    big_number_sum "9.9".data "0.1".data = some "10".data ∧
    dunder_add "9.9".data "0.1".data = AddOutcome.mkInt "10".data :=
  ⟨by decide, by decide, by decide, by decide⟩

/-- Claim C2: for every pair of validly constructed `Int` values (their
canonical strings are int-shaped), addition returns an `Int`, never a
`Float`: both split representations get fractional part `"0"`, the
fractional pass produces `"0"`, and the result is the integer-pass string
alone; in particular `Integer("12") + Integer("30")` is the `Int` `"42"`
(see the witness). -/
theorem claim_C2 : ∀ a b : List Char, is_int a = true → is_int b = true →
    ∃ r, big_number_sum a b = some r ∧ is_int r = true ∧
      dunder_add a b = AddOutcome.mkInt r := by
  intro a b ha hb
  have hfa := factory_of_is_int ha
  have hfb := factory_of_is_int hb
  have hrem : make_sum_remain_part ['0'] ['0'] = ⟨['0'], 0⟩ := by decide
  have hint := make_sum_integer_part_digits (is_int_chars ha).2
    (is_int_chars hb).2 (show (-1 : Int) ≤ 0 by omega)
    (show (0 : Int) ≤ 1 by omega) (is_int_chars ha).1
  have hsum : big_number_sum a b = some (make_sum_integer_part a b 0) := by
    rw [big_number_sum_eq hfa hfb]
    simp [hrem]
  exact ⟨_, hsum, is_int_of_digits hint.1 hint.2,
    dunder_add_of_int hsum (is_int_of_digits hint.1 hint.2)⟩

/-- Witness for C2 at the spec's example: `"12" + "30"` is the `Int`
`"42"`. -/
theorem claim_C2_witness :
    (∃ r, big_number_sum "12".data "30".data = some r ∧ is_int r = true ∧
      dunder_add "12".data "30".data = AddOutcome.mkInt r) ∧
    dunder_add "12".data "30".data = AddOutcome.mkInt "42".data :=
  ⟨claim_C2 "12".data "30".data (by decide) (by decide), by decide⟩

/-- Claim C3: addition is commutative: for every pair of validly
constructed numeric values the canonical string of `a + b` equals that of
`b + a`. -/
theorem claim_C3 : ∀ a b : List Char, is_number a = true →
    is_number b = true → big_number_sum a b = big_number_sum b a := by
  intro a b _ _
  exact big_number_sum_comm a b

/-- Witness for C3 at a concrete pair. -/
theorem claim_C3_witness :
    big_number_sum "1.25".data "30".data = big_number_sum "30".data "1.25".data :=
  claim_C3 "1.25".data "30".data (by decide) (by decide)

/-- Claim C4: the fractional pass aligns the two fractional parts from
their rightmost characters (right-justified, like integer place values):
the pair loop pops `min(len)` digit pairs with carry and the remain loop
pops the longer part's leftover digits with the running carry, so the
fractional result together with its outgoing carry equals the ordinary
integer sum of the two parts read as right-justified numerals; in
particular fractional parts `"25"` and `"1"` combine to `"26"`, so
`Decimal("0.25") + Decimal("0.1")` yields `"0.26"`. -/
theorem claim_C4 :
    (∀ a b : List Char, (∀ c ∈ a, isDigitChar c = true) →
      (∀ c ∈ b, isDigitChar c = true) →
      strVal (make_sum_remain_part a b).result
          + (make_sum_remain_part a b).accumulated * 10 ^ max a.length b.length
        = strVal a + strVal b) ∧
    make_sum_remain_part "25".data "1".data = ⟨"26".data, 0⟩ ∧
    big_number_sum "0.25".data "0.1".data = some "0.26".data := by
  refine ⟨?_, by decide, by decide⟩
  intro a b ha hb
  exact make_sum_remain_part_val ha hb

/-- Witness for C4: the right-justified value equation at the fractional
parts `"25"` and `"1"`. -/
theorem claim_C4_witness :
    strVal (make_sum_remain_part "25".data "1".data).result
        + (make_sum_remain_part "25".data "1".data).accumulated
          * 10 ^ max "25".data.length "1".data.length
      = strVal "25".data + strVal "1".data :=
  claim_C4.1 "25".data "1".data (by decide) (by decide)

/-- Claim C5 as stated is false: adding the int-shaped negative operands
`"-3"` and `"-5"` (same sign, no subtraction involved) yields the
canonical string `"48"`, which contains no `'-'` at all — the leading
minus captured by the classifier is not passed through to the output. -/
theorem claim_C5_counterexample :
    big_number_sum "-3".data "-5".data = some "48".data ∧
    dunder_add "-3".data "-5".data = AddOutcome.mkInt "48".data ∧
    "48".data.contains '-' = false :=
  ⟨by decide, by decide, by decide⟩

/-- Claim C5 amended: the leading `'-'` is never preserved in the output;
the digit arithmetic consumes it as the value `ord('-') - ord('0') = -3`,
and every character of any addition result is a digit or the dot, never a
sign. -/
theorem claim_C5 :
    charVal '-' = -3 ∧
    ∀ a b : List Char, is_number a = true → is_number b = true →
      ∀ r, big_number_sum a b = some r →
      ∀ c ∈ r, c ≠ '-' ∧ (isDigitChar c = true ∨ c = '.') := by
  refine ⟨by decide, ?_⟩
  intro a b ha hb r hr c hc
  obtain ⟨r2, hr2, -, hchars⟩ := big_number_sum_shape ha hb
  rw [hr] at hr2
  cases Option.some.inj hr2
  rcases hchars c hc with hd | hd
  · exact ⟨digit_ne_minus hd, Or.inl hd⟩
  · subst hd
    exact ⟨by decide, Or.inr rfl⟩

/-- Witness for C5 (amended) at the counterexample operands. -/
theorem claim_C5_witness :
    ∀ c ∈ "48".data, c ≠ '-' ∧ (isDigitChar c = true ∨ c = '.') :=
  claim_C5.2 "-3".data "-5".data (by decide) (by decide) "48".data (by decide)

/-- Claim C6 as stated is false: `string_value_to_int` (the `Int` value
setter's conversion) returns `"007"` unchanged, so `Integer("007").value`
is `"007"`, not `"7"`. -/
theorem claim_C6_counterexample :
    string_value_to_int "007".data = some "007".data ∧
    "007".data ≠ "7".data :=
  ⟨by decide, by decide⟩

/-- Claim C6 amended: construction performs no leading-zero
normalization: for every int-shaped string `a` the `Int` value setter
stores and returns `a` exactly (leading zeros are only stripped by the
addition passes, never at construction). -/
theorem claim_C6 : ∀ a : List Char, is_int a = true →
    string_value_to_int a = some a := by
  intro a ha
  exact string_value_to_int_of_is_int ha

/-- Witness for C6 (amended) at the spec's example input. -/
theorem claim_C6_witness : string_value_to_int "007".data = some "007".data :=
  claim_C6 "007".data (by decide)

/-- Claim C7 as stated is false: the valid canonical string `"4.0"` (a
Decimal, as produced by Decimal construction from `"4"`) splits into
integer part `"4"` and fractional part `"0"`, so the re-join rule takes
the integer part alone and produces `"4"`, not `"4.0"`. -/
theorem claim_C7_counterexample :
    is_float "4.0".data = true ∧
    split_roundtrip "4.0".data = some "4".data ∧
    "4".data ≠ "4.0".data :=
  ⟨by decide, by decide, by decide⟩

/-- Claim C7 amended: the split/re-join round-trip reproduces `s` exactly
for every int-shaped string and for every float-shaped string whose
fractional part differs from `"0"`; for a float-shaped string whose
fractional part is exactly `"0"` it yields the integer part alone
instead of `s`. -/
theorem claim_C7 :
    (∀ s : List Char, is_int s = true → split_roundtrip s = some s) ∧
    (∀ s : List Char, is_float s = true → splitAfter s ≠ ['0'] →
      split_roundtrip s = some s) ∧
    (∀ s : List Char, is_float s = true → splitAfter s = ['0'] →
      split_roundtrip s = some (splitBefore s)) := by
  refine ⟨?_, ?_, ?_⟩
  · intro s hs
    unfold split_roundtrip
    rw [factory_of_is_int hs]
    simp
  · intro s hs h0
    unfold split_roundtrip
    rw [factory_of_is_float hs]
    have hj := (is_float_elim hs).1
    simp only [Option.map_some', if_neg h0]
    unfold join_big_number_parts
    exact congrArg some hj.symm
  · intro s hs h0
    unfold split_roundtrip
    rw [factory_of_is_float hs]
    simp [h0]

/-- Witness for C7 (amended) at three concrete canonical strings. -/
theorem claim_C7_witness :
    split_roundtrip "12".data = some "12".data ∧
    split_roundtrip "1.5".data = some "1.5".data ∧
    split_roundtrip "4.0".data = some (splitBefore "4.0".data) :=
  ⟨claim_C7.1 "12".data (by decide),
   claim_C7.2.1 "1.5".data (by decide) (by decide),
   claim_C7.2.2 "4.0".data (by decide) (by decide)⟩

/-- Claim C8: numeric-value construction (both converters) and the
decimal splitter succeed exactly on strings matching the integer shape
`-?digit+` or the decimal shape `-?digit+.digit+`, and fail with
`ValueError` (the spec's `InvalidNumberFormat`) on every other string, in
particular on `"12a"`, `""` and `"1.2.3"`. -/
theorem claim_C8 :
    (∀ s : List Char,
      (string_value_to_int s).isSome = is_number s ∧
      (string_value_to_float s).isSome = is_number s ∧
      (big_number_processing_storage_factory s).isSome = is_number s) ∧
    string_value_to_int "12a".data = none ∧
    string_value_to_int "".data = none ∧
    string_value_to_int "1.2.3".data = none ∧
    string_value_to_float "12a".data = none ∧
    string_value_to_float "".data = none ∧
    string_value_to_float "1.2.3".data = none ∧
    big_number_processing_storage_factory "12a".data = none ∧
    big_number_processing_storage_factory "".data = none ∧
    big_number_processing_storage_factory "1.2.3".data = none := by
  refine ⟨?_, by decide, by decide, by decide, by decide, by decide,
    by decide, by decide, by decide, by decide⟩
  intro s
  unfold string_value_to_int string_value_to_float
    big_number_processing_storage_factory is_number
  cases hf : is_float s <;> cases hi : is_int s <;> simp [hf, hi]

/-- Claim C9: popping an empty digit stack fails (`OverflowError`, the
spec's EmptyStackError/Underflow) and popping never fails on a non-empty
stack; the element returned is the most recently pushed one (LIFO). -/
theorem claim_C9 :
    (∀ s : Stack Char, s.pop = none ↔ s.elems = []) ∧
    (∀ (s : Stack Char) (v : Char), (s.add v).pop = some (v, s)) := by
  constructor
  · intro s
    unfold Stack.pop
    cases h : s.elems <;> simp
  · intro s v
    rfl

/-- Claim C10: for validly constructed non-negative operands, `__add__`
always returns an `Int` or a `Float` and never falls through to the
implicit `None`: the string `big_number_sum` produces always satisfies
`is_int` or `is_float`, so the final untaken branch is unreachable under
this precondition. -/
theorem claim_C10 : ∀ a b : List Char, is_number a = true →
    is_number b = true → '-' ∉ a → '-' ∉ b →
    ∃ r, big_number_sum a b = some r ∧ (is_int r || is_float r) = true ∧
      (dunder_add a b = AddOutcome.mkInt r ∨
        dunder_add a b = AddOutcome.mkFloat r) := by
  intro a b ha hb _ _
  obtain ⟨r, hr, hshape, -⟩ := big_number_sum_shape ha hb
  refine ⟨r, hr, ?_, ?_⟩
  · rcases hshape with h | h <;> simp [h]
  · rcases hshape with h | h
    · exact Or.inl (dunder_add_of_int hr h)
    · exact Or.inr (dunder_add_of_float hr h)

/-- Witness for C10 at the spec's mixed example `"5" + "2.5"`. -/
theorem claim_C10_witness :
    ∃ r, big_number_sum "5".data "2.5".data = some r ∧
      (is_int r || is_float r) = true ∧
      (dunder_add "5".data "2.5".data = AddOutcome.mkInt r ∨
        dunder_add "5".data "2.5".data = AddOutcome.mkFloat r) :=
  claim_C10 "5".data "2.5".data (by decide) (by decide) (by decide) (by decide)

end Jarvis
